import Mathlib

/-!
Verification development for the FIFO cost-basis engine of the
Portfolio-analysis repository.

The engine lives in src/src/App.jsx (the analytics useMemo, lines 19-94):
it sorts the transaction list by date, replays it per ticker against a
queue of open buy lots, and aggregates realized profit, current
investment, unrealized profit and the derived portfolio figures.
A second FIFO matcher with the same inner loop lives in
src/src/pages/Analytics.jsx (calculateCompanyMetrics, lines 181-278).

Numbers are embedded as rationals (the JavaScript values are IEEE
doubles; on the exact decimal inputs at stake here the two agree, and
the spec treats rounding as a reporting concern).  The mutable
JavaScript object keyed by ticker is embedded as an association list in
key-insertion order, which is the enumeration order of Object.values.
-/

namespace Portfolio

/-- An open buy lot: the object pushed by buyLots[t.ticker].push in
App.jsx line 39, holding the remaining quantity and the unit cost. -/
structure Lot where
  qty : ℚ
  price : ℚ
  deriving DecidableEq, Repr

/-- A transaction record as read by the engine: ticker symbol, type tag
(BUY or SELL or anything else), quantity, unit price, and the date
reduced to its timestamp (the comparator in App.jsx line 28 subtracts
the two Date values, so only this number matters for ordering). -/
structure Txn where
  ticker : String
  type : String
  qty : ℚ
  price : ℚ
  date : ℕ
  deriving DecidableEq, Repr

/-- Lookup of a key in a string-keyed object, embedded as an
association list in insertion order: reading m[k]. -/
def assocFind {β : Type} : List (String × β) → String → Option β
  | [], _ => none
  | (k, v) :: rest, tk => if k = tk then some v else assocFind rest tk

/-- Writing m[k] = w for a key already present: replaces the value of
the first (unique) matching key, keeps insertion order. -/
def assocSet {β : Type} : List (String × β) → String → β → List (String × β)
  | [], _, _ => []
  | (k, v) :: rest, tk, w =>
    if k = tk then (k, w) :: rest else (k, v) :: assocSet rest tk w

/-- The guard `if (!m[k]) m[k] = e` of App.jsx line 35: arrays are
always truthy, so this inserts e exactly when the key is absent, at the
end (JavaScript string keys enumerate in insertion order). -/
def assocEnsure {β : Type} (m : List (String × β)) (tk : String) (e : β) :
    List (String × β) :=
  match assocFind m tk with
  | some _ => m
  | none => m ++ [(tk, e)]

/-- Reading m[k] with a default for an absent key. -/
def assocGet {β : Type} (m : List (String × β)) (tk : String) (e : β) : β :=
  (assocFind m tk).getD e

/-- The ticker-to-lot-queue object buyLots of App.jsx line 31. -/
abbrev LotMap := List (String × List Lot)

/-- buyLots[tk], defaulting to the empty queue. -/
def getLots (m : LotMap) (tk : String) : List Lot :=
  assocGet m tk []

/-- A reduce over a list with accumulator starting at 0, as in
transactions.reduce((s, t) => s + f t, 0) and the forEach accumulation
loops of App.jsx. -/
def sumBy {α : Type} (l : List α) (f : α → ℚ) : ℚ :=
  l.foldl (fun s a => s + f a) 0

/-- Total remaining quantity of a lot queue. -/
def lotsQty (lots : List Lot) : ℚ :=
  sumBy lots (fun l => l.qty)

/-- Cost basis of a lot queue: sum of lot.qty * lot.price. -/
def lotsCost (lots : List Lot) : ℚ :=
  sumBy lots (fun l => l.qty * l.price)

/-- The SELL while loop of App.jsx lines 45-53, recursing on the lot
queue.  Returns the realized-profit increment accrued by the loop and
the surviving queue.  Each iteration takes the front lot, matches
matched = min(lot.qty, remaining), accrues (sellPrice - lot.price) *
matched, and decrements both lot.qty and remaining by matched.  When
lot.qty - matched = 0 the front lot is shifted off and the loop
continues on the tail.  Otherwise matched differs from lot.qty, hence
matched = min(lot.qty, remaining) = remaining, so remaining drops to 0,
the guard remaining > 0 fails at the next test, and the loop exits
keeping the partially consumed front lot: the non-shift branch returns
directly. -/
def sellFifo (sellPrice : ℚ) : ℚ → List Lot → ℚ × List Lot
  | _, [] => (0, [])
  | remaining, lot :: rest =>
    if 0 < remaining then
      let matched := min lot.qty remaining
      let profit := (sellPrice - lot.price) * matched
      if lot.qty - matched = 0 then
        let r := sellFifo sellPrice (remaining - matched) rest
        (profit + r.1, r.2)
      else
        (profit, ⟨lot.qty - matched, lot.price⟩ :: rest)
    else (0, lot :: rest)
termination_by structural _ lots => lots

/-- The running state of the replay loop of App.jsx lines 31-56: the
per-ticker lot queues and the realized profit accumulator. -/
structure EngineState where
  buyLots : LotMap
  realizedProfit : ℚ
  deriving DecidableEq, Repr

/-- One iteration of sortedTransactions.forEach (App.jsx lines 34-56):
ensure the ticker key exists, then push a lot on BUY, run the FIFO
matching loop on SELL, and do nothing further on any other type tag. -/
def engineStep (s : EngineState) (t : Txn) : EngineState :=
  let m := assocEnsure s.buyLots t.ticker []
  if t.type = "BUY" then
    { s with
      buyLots := assocSet m t.ticker (getLots m t.ticker ++ [⟨t.qty, t.price⟩]) }
  else if t.type = "SELL" then
    let r := sellFifo t.price t.qty (getLots m t.ticker)
    { buyLots := assocSet m t.ticker r.2
      realizedProfit := s.realizedProfit + r.1 }
  else
    { s with buyLots := m }

/-- The sortedTransactions of App.jsx line 28: a stable sort of a copy
of the list, ascending by date (the numeric comparator subtracts the
Date values; Array.prototype.sort is stable). -/
def sortTransactions (txs : List Txn) : List Txn :=
  txs.mergeSort (fun a b => a.date ≤ b.date)

/-- The record returned by the fifoResult IIFE of App.jsx lines 26-67. -/
structure FifoResult where
  currentInvestment : ℚ
  realizedProfit : ℚ
  buyLots : LotMap
  deriving DecidableEq, Repr

/-- The fifoResult computation of App.jsx lines 26-67: sort by date,
replay through engineStep from the empty state, then sum
lot.qty * lot.price over every surviving lot of every ticker
(Object.values enumeration, lines 58-64). -/
def fifoResult (txs : List Txn) : FifoResult :=
  let final := (sortTransactions txs).foldl engineStep ⟨[], 0⟩
  { currentInvestment := sumBy final.buyLots (fun p => lotsCost p.2)
    realizedProfit := final.realizedProfit
    buyLots := final.buyLots }

/-- JavaScript x || y on a number-or-undefined lookup result: undefined
and 0 (and only those values arising here) are falsy, so the fallback y
is used when the lookup missed or returned 0. -/
def jsOr (x : Option ℚ) (y : ℚ) : ℚ :=
  match x with
  | none => y
  | some v => if v = 0 then y else v

/-- The aggregate record returned by the analytics useMemo
(App.jsx lines 85-93). -/
structure Analytics where
  totalInvestment : ℚ
  currentInvestment : ℚ
  currentValue : ℚ
  realizedProfit : ℚ
  unrealizedProfit : ℚ
  totalProfit : ℚ
  profitPercentage : ℚ
  deriving DecidableEq, Repr

/-- The analytics computation of App.jsx lines 19-94.  The live-price
object tickerPrices is embedded as a partial map from ticker to price;
tickerPrices[tk] || e is jsOr.  totalInvestment sums qty * price over
BUY rows of the unsorted list (lines 21-23); unrealizedProfit sums
(currentPrice - lot.price) * lot.qty over surviving lots with
currentPrice = tickerPrices[ticker] || 0 (lines 72-78); profitPercentage
guards the division by totalInvestment = 0 (line 81); currentValue sums
qty * (tickerPrices[t.ticker] || t.price) over all rows (line 83). -/
def analytics (txs : List Txn) (prices : String → Option ℚ) : Analytics :=
  let totalInvestment :=
    sumBy (txs.filter (fun t => t.type = "BUY")) (fun t => t.qty * t.price)
  let f := fifoResult txs
  let unrealizedProfit :=
    sumBy f.buyLots (fun p =>
      sumBy p.2 (fun l => (jsOr (prices p.1) 0 - l.price) * l.qty))
  let totalProfit := f.realizedProfit + unrealizedProfit
  let profitPercentage :=
    if totalInvestment = 0 then 0 else totalProfit / totalInvestment * 100
  let currentValue :=
    sumBy txs (fun t => t.qty * jsOr (prices t.ticker) t.price)
  { totalInvestment := totalInvestment
    currentInvestment := f.currentInvestment
    currentValue := currentValue
    realizedProfit := f.realizedProfit
    unrealizedProfit := unrealizedProfit
    totalProfit := totalProfit
    profitPercentage := profitPercentage }

/-- Ghost observer of the SELL loop: the total matched quantity, the
sum of the per-iteration matchedQty values of App.jsx line 47, along
the same recursion as sellFifo. -/
def sellMatched : ℚ → List Lot → ℚ
  | _, [] => 0
  | remaining, lot :: rest =>
    if 0 < remaining then
      let matched := min lot.qty remaining
      if lot.qty - matched = 0 then matched + sellMatched (remaining - matched) rest
      else matched
    else 0
termination_by structural _ lots => lots

/-! ### Basic lemmas about the accumulation helper -/

theorem foldl_add_sum {α : Type} (f : α → ℚ) (l : List α) :
    ∀ init : ℚ, l.foldl (fun s a => s + f a) init = init + (l.map f).sum := by
  induction l with
  | nil => intro init; simp
  | cons a l ih => intro init; simp [ih, add_assoc]

theorem sumBy_eq_sum {α : Type} (f : α → ℚ) (l : List α) :
    sumBy l f = (l.map f).sum := by
  simp [sumBy, foldl_add_sum]

theorem sumBy_nil {α : Type} (f : α → ℚ) : sumBy [] f = 0 := rfl

theorem sumBy_cons {α : Type} (f : α → ℚ) (a : α) (l : List α) :
    sumBy (a :: l) f = f a + sumBy l f := by
  simp [sumBy_eq_sum]

theorem sumBy_append {α : Type} (f : α → ℚ) (l m : List α) :
    sumBy (l ++ m) f = sumBy l f + sumBy m f := by
  simp [sumBy_eq_sum]

theorem sumBy_perm {α : Type} (f : α → ℚ) {l m : List α} (h : l.Perm m) :
    sumBy l f = sumBy m f := by
  rw [sumBy_eq_sum, sumBy_eq_sum]
  exact (h.map f).sum_eq

theorem sumBy_nonneg {α : Type} {f : α → ℚ} {l : List α}
    (h : ∀ a ∈ l, 0 ≤ f a) : 0 ≤ sumBy l f := by
  induction l with
  | nil => simp [sumBy_nil]
  | cons a l ih =>
    rw [sumBy_cons]
    have := h a (by simp)
    have := ih (fun b hb => h b (by simp [hb]))
    linarith

/-! ### Lemmas about the association-list object embedding -/

theorem assocFind_mem {β : Type} {m : List (String × β)} {tk : String} {v : β} :
    assocFind m tk = some v → (tk, v) ∈ m := by
  induction m with
  | nil => simp [assocFind]
  | cons p rest ih =>
    obtain ⟨k, w⟩ := p
    simp only [assocFind]
    by_cases hk : k = tk
    · subst hk; intro h; simp at h; simp [h]
    · simp only [if_neg hk]
      intro h
      exact List.mem_cons_of_mem _ (ih h)

theorem assocFind_append {β : Type} (m₁ m₂ : List (String × β)) (tk : String) :
    assocFind (m₁ ++ m₂) tk =
      ((assocFind m₁ tk).rec (assocFind m₂ tk) (fun v => some v) : Option β) := by
  induction m₁ with
  | nil => simp [assocFind]
  | cons p rest ih =>
    obtain ⟨k, w⟩ := p
    by_cases hk : k = tk
    · simp [assocFind, hk]
    · simp [assocFind, hk, ih]

theorem assocFind_ensure_self {β : Type} (m : List (String × β)) (tk : String) (e : β) :
    assocFind (assocEnsure m tk e) tk = some (assocGet m tk e) := by
  unfold assocEnsure assocGet
  cases h : assocFind m tk with
  | some v => simp [h]
  | none =>
    rw [assocFind_append, h]
    simp [assocFind]

theorem assocFind_ensure_ne {β : Type} {m : List (String × β)} {tk k : String} (e : β)
    (hne : k ≠ tk) : assocFind (assocEnsure m tk e) k = assocFind m k := by
  unfold assocEnsure
  cases h : assocFind m tk with
  | some v => rfl
  | none =>
    rw [assocFind_append]
    cases hk : assocFind m k with
    | some v => rfl
    | none => simp [assocFind, Ne.symm hne]

theorem assocFind_set_self {β : Type} {m : List (String × β)} {tk : String} {v : β} (w : β)
    (h : assocFind m tk = some v) : assocFind (assocSet m tk w) tk = some w := by
  induction m with
  | nil => simp [assocFind] at h
  | cons p rest ih =>
    obtain ⟨k, u⟩ := p
    by_cases hk : k = tk
    · simp [assocFind, assocSet, hk]
    · simp only [assocFind, assocSet, if_neg hk]
      simp only [assocFind, if_neg hk] at h
      exact ih h

theorem assocFind_set_ne {β : Type} {m : List (String × β)} {tk k : String} (w : β)
    (hne : k ≠ tk) : assocFind (assocSet m tk w) k = assocFind m k := by
  induction m with
  | nil => simp [assocSet]
  | cons p rest ih =>
    obtain ⟨k', u⟩ := p
    by_cases hk : k' = tk
    · subst hk
      have hkk : ¬ k' = k := fun h => hne h.symm
      simp [assocFind, assocSet, hkk]
    · simp only [assocSet, if_neg hk]
      by_cases hk2 : k' = k
      · simp [assocFind, hk2]
      · simp [assocFind, hk2, ih]

theorem mem_assocSet {β : Type} {m : List (String × β)} {tk : String} {w : β} {p : String × β}
    (h : p ∈ assocSet m tk w) : p.2 = w ∨ p ∈ m := by
  induction m with
  | nil => simp [assocSet] at h
  | cons q rest ih =>
    obtain ⟨k, u⟩ := q
    by_cases hk : k = tk
    · simp only [assocSet, if_pos hk] at h
      rcases List.mem_cons.mp h with h | h
      · left; rw [h]
      · right; exact List.mem_cons_of_mem _ h
    · simp only [assocSet, if_neg hk] at h
      rcases List.mem_cons.mp h with h | h
      · right; rw [h]; exact List.mem_cons_self _ _
      · rcases ih h with h | h
        · left; exact h
        · right; exact List.mem_cons_of_mem _ h

theorem mem_assocEnsure {β : Type} {m : List (String × β)} {tk : String} {e : β}
    {p : String × β} (h : p ∈ assocEnsure m tk e) : p ∈ m ∨ p = (tk, e) := by
  unfold assocEnsure at h
  cases hf : assocFind m tk with
  | some v => rw [hf] at h; left; exact h
  | none =>
    rw [hf] at h
    rcases List.mem_append.mp h with h | h
    · left; exact h
    · right; simpa using h

/-! ### Observers of a single engine step -/

theorem getLots_ensure (m : LotMap) (tk k : String) :
    getLots (assocEnsure m tk []) k = getLots m k := by
  unfold getLots assocGet
  by_cases hk : k = tk
  · subst hk
    rw [assocFind_ensure_self]
    rfl
  · rw [assocFind_ensure_ne _ hk]

theorem getLots_set_self {m : LotMap} {tk : String} {v₀ : List Lot} (v : List Lot)
    (h : assocFind m tk = some v₀) : getLots (assocSet m tk v) tk = v := by
  unfold getLots assocGet
  rw [assocFind_set_self v h]
  rfl

theorem getLots_set_ne {m : LotMap} {tk k : String} (v : List Lot) (hne : k ≠ tk) :
    getLots (assocSet m tk v) k = getLots m k := by
  unfold getLots assocGet
  rw [assocFind_set_ne v hne]

theorem engineStep_getLots_ne {s : EngineState} {t : Txn} {k : String}
    (hne : k ≠ t.ticker) :
    getLots (engineStep s t).buyLots k = getLots s.buyLots k := by
  unfold engineStep
  by_cases hb : t.type = "BUY"
  · simp only [if_pos hb]
    rw [getLots_set_ne _ hne, getLots_ensure]
  · by_cases hs : t.type = "SELL"
    · simp only [if_neg hb, if_pos hs]
      rw [getLots_set_ne _ hne, getLots_ensure]
    · simp only [if_neg hb, if_neg hs]
      rw [getLots_ensure]

theorem engineStep_getLots_buy {s : EngineState} {t : Txn} (hb : t.type = "BUY") :
    getLots (engineStep s t).buyLots t.ticker =
      getLots s.buyLots t.ticker ++ [⟨t.qty, t.price⟩] := by
  unfold engineStep
  simp only [if_pos hb]
  rw [getLots_set_self _ (assocFind_ensure_self s.buyLots t.ticker []),
    getLots_ensure]

theorem engineStep_getLots_sell {s : EngineState} {t : Txn} (hs : t.type = "SELL") :
    getLots (engineStep s t).buyLots t.ticker =
      (sellFifo t.price t.qty (getLots s.buyLots t.ticker)).2 := by
  unfold engineStep
  have hb : ¬ t.type = "BUY" := by rw [hs]; decide
  simp only [if_neg hb, if_pos hs]
  rw [getLots_set_self _ (assocFind_ensure_self s.buyLots t.ticker []),
    getLots_ensure]

theorem engineStep_getLots_other {s : EngineState} {t : Txn} (k : String)
    (hb : ¬ t.type = "BUY") (hs : ¬ t.type = "SELL") :
    getLots (engineStep s t).buyLots k = getLots s.buyLots k := by
  unfold engineStep
  simp only [if_neg hb, if_neg hs]
  rw [getLots_ensure]

theorem engineStep_realized_of_not_sell {s : EngineState} {t : Txn}
    (hs : ¬ t.type = "SELL") :
    (engineStep s t).realizedProfit = s.realizedProfit := by
  unfold engineStep
  by_cases hb : t.type = "BUY"
  · simp [if_pos hb]
  · simp [if_neg hb, if_neg hs]

theorem engineStep_realized_of_sell {s : EngineState} {t : Txn}
    (hs : t.type = "SELL") :
    (engineStep s t).realizedProfit =
      s.realizedProfit + (sellFifo t.price t.qty (getLots s.buyLots t.ticker)).1 := by
  unfold engineStep
  have hb : ¬ t.type = "BUY" := by rw [hs]; decide
  simp only [if_neg hb, if_pos hs]
  rw [getLots_ensure]

/-! ### Lemmas about the SELL matching loop -/

theorem sellFifo_qty (p : ℚ) (r : ℚ) (lots : List Lot) :
    lotsQty (sellFifo p r lots).2 = lotsQty lots - sellMatched r lots := by
  induction lots generalizing r with
  | nil => simp [sellFifo, sellMatched]
  | cons lot rest ih =>
    by_cases hr : 0 < r
    · by_cases hz : lot.qty - min lot.qty r = 0
      · simp only [sellFifo, sellMatched, if_pos hr, if_pos hz]
        have := ih (r - min lot.qty r)
        simp only [lotsQty, sumBy_cons] at this ⊢
        rw [this]
        linarith
      · simp only [sellFifo, sellMatched, if_pos hr, if_neg hz]
        simp only [lotsQty, sumBy_cons]
        ring
    · simp only [sellFifo, sellMatched, if_neg hr]
      simp [lotsQty]

theorem sellFifo_nonneg (p : ℚ) (r : ℚ) (lots : List Lot)
    (h : ∀ l ∈ lots, 0 ≤ l.qty) : ∀ l ∈ (sellFifo p r lots).2, 0 ≤ l.qty := by
  induction lots generalizing r with
  | nil => simp [sellFifo]
  | cons lot rest ih =>
    by_cases hr : 0 < r
    · by_cases hz : lot.qty - min lot.qty r = 0
      · simp only [sellFifo, if_pos hr, if_pos hz]
        exact ih (r - min lot.qty r) (fun l hl => h l (List.mem_cons_of_mem _ hl))
      · simp only [sellFifo, if_pos hr, if_neg hz]
        intro l hl
        rcases List.mem_cons.mp hl with hl | hl
        · subst hl
          simp only
          have := min_le_left lot.qty r
          linarith
        · exact h l (List.mem_cons_of_mem _ hl)
    · simp only [sellFifo, if_neg hr]
      exact h

theorem lotsQty_nonneg {lots : List Lot} (h : ∀ l ∈ lots, 0 ≤ l.qty) :
    0 ≤ lotsQty lots :=
  sumBy_nonneg h

/-- An oversized SELL consumes the whole queue: it accrues exactly the
profit of selling every held unit and leaves the queue empty, the
excess quantity contributing nothing. -/
theorem sellFifo_oversell (p : ℚ) (r : ℚ) (lots : List Lot)
    (h : ∀ l ∈ lots, 0 ≤ l.qty) (hlt : lotsQty lots < r) :
    sellFifo p r lots = (sumBy lots (fun l => (p - l.price) * l.qty), []) := by
  induction lots generalizing r with
  | nil => simp [sellFifo, sumBy_nil]
  | cons lot rest ih =>
    have hq0 : 0 ≤ lot.qty := h lot (List.mem_cons_self _ _)
    have hrest : 0 ≤ lotsQty rest :=
      lotsQty_nonneg (fun l hl => h l (List.mem_cons_of_mem _ hl))
    have hcons : lotsQty (lot :: rest) = lot.qty + lotsQty rest := by
      simp [lotsQty, sumBy_cons]
    have hr : 0 < r := by rw [hcons] at hlt; linarith
    have hmin : min lot.qty r = lot.qty := by
      apply min_eq_left
      rw [hcons] at hlt
      linarith
    have hz : lot.qty - min lot.qty r = 0 := by rw [hmin]; ring
    simp only [sellFifo, if_pos hr, if_pos hz]
    rw [ih (r - min lot.qty r) (fun l hl => h l (List.mem_cons_of_mem _ hl))
      (by rw [hmin]; rw [hcons] at hlt; linarith)]
    try simp only [sumBy_cons, hmin, Prod.mk.injEq, and_true]
    try ring

/-! ### Sorting lemmas -/

theorem sortTransactions_of_sorted {txs : List Txn}
    (h : txs.Pairwise (fun a b => a.date ≤ b.date)) :
    sortTransactions txs = txs :=
  List.mergeSort_of_sorted (h.imp (fun hab => by simpa using hab))

theorem sortTransactions_perm (txs : List Txn) :
    (sortTransactions txs).Perm txs :=
  List.mergeSort_perm txs _

theorem sortTransactions_pairwise (txs : List Txn) :
    (sortTransactions txs).Pairwise (fun a b => a.date ≤ b.date) := by
  have h := @List.sorted_mergeSort Txn
    (fun a b : Txn => decide (a.date ≤ b.date))
    (fun a b c hab hbc => by
      simp only [decide_eq_true_eq] at *
      omega)
    (fun a b => by
      simp only [Bool.or_eq_true, decide_eq_true_eq]
      omega)
    txs
  exact h.imp (fun hab => by simpa using hab)

/-- Two sorted lists of transactions with the same elements and
pairwise distinct dates are equal. -/
theorem sorted_nodup_date_eq : ∀ {l₁ l₂ : List Txn}, l₁.Perm l₂ →
    l₁.Pairwise (fun a b => a.date ≤ b.date) →
    l₂.Pairwise (fun a b => a.date ≤ b.date) →
    (l₁.map Txn.date).Nodup → l₁ = l₂ := by
  intro l₁
  induction l₁ with
  | nil => intro l₂ hp _ _ _; exact (hp.nil_eq).symm ▸ rfl
  | cons a t₁ ih =>
    intro l₂ hp hs₁ hs₂ hnd
    cases l₂ with
    | nil => exact absurd hp.symm.nil_eq (by simp)
    | cons b t₂ =>
      have hab : a = b := by
        by_contra hne
        have hb₁ : b ∈ a :: t₁ := hp.symm.subset (List.mem_cons_self _ _)
        have ha₂ : a ∈ b :: t₂ := hp.subset (List.mem_cons_self _ _)
        have hbt₁ : b ∈ t₁ := by
          rcases List.mem_cons.mp hb₁ with h | h
          · exact absurd h.symm hne
          · exact h
        have hat₂ : a ∈ t₂ := by
          rcases List.mem_cons.mp ha₂ with h | h
          · exact absurd h hne
          · exact h
        have h₁ : a.date ≤ b.date := (List.pairwise_cons.mp hs₁).1 b hbt₁
        have h₂ : b.date ≤ a.date := (List.pairwise_cons.mp hs₂).1 a hat₂
        have hdate : a.date = b.date := le_antisymm h₁ h₂
        have hnd' : a.date ∉ t₁.map Txn.date ∧ (t₁.map Txn.date).Nodup := by
          rw [List.map_cons, List.nodup_cons] at hnd
          exact hnd
        exact hnd'.1 (hdate ▸ List.mem_map_of_mem Txn.date hbt₁)
      subst hab
      have ht : t₁.Perm t₂ := hp.cons_inv
      have hnd' : (t₁.map Txn.date).Nodup := by
        rw [List.map_cons, List.nodup_cons] at hnd
        exact hnd.2
      rw [ih ht (List.pairwise_cons.mp hs₁).2 (List.pairwise_cons.mp hs₂).2 hnd']

theorem sortTransactions_perm_eq {txs txs' : List Txn} (hperm : txs.Perm txs')
    (hnd : (txs.map Txn.date).Nodup) :
    sortTransactions txs = sortTransactions txs' := by
  apply sorted_nodup_date_eq
  · exact (sortTransactions_perm txs).trans
      (hperm.trans (sortTransactions_perm txs').symm)
  · exact sortTransactions_pairwise txs
  · exact sortTransactions_pairwise txs'
  · exact (((sortTransactions_perm txs).map Txn.date).nodup_iff).mpr hnd

/-! ### Per-ticker observers of the replay

The source accumulates one global realizedProfit.  To speak about the
contribution of a single ticker we observe the replay step by step:
each transaction contributes the increment of realizedProfit produced
by its engineStep, and each SELL matches the sellMatched total of its
loop run.  These observers are derived from the same faithful step
function; they introduce no new behaviour. -/

/-- Sum of the realizedProfit increments contributed by the steps whose
transaction carries the given ticker, along the replay from state s. -/
def replayContrib (tk : String) : EngineState → List Txn → ℚ
  | _, [] => 0
  | s, t :: rest =>
    (if t.ticker = tk then (engineStep s t).realizedProfit - s.realizedProfit else 0)
      + replayContrib tk (engineStep s t) rest
termination_by structural _ l => l

/-- The per-ticker realized profit contribution over the whole engine
run (sorted replay from the empty state). -/
def realizedContrib (txs : List Txn) (tk : String) : ℚ :=
  replayContrib tk ⟨[], 0⟩ (sortTransactions txs)

/-- Sum of the matched quantities consumed by the SELL steps of the
given ticker, along the replay from state s. -/
def matchedContrib (tk : String) : EngineState → List Txn → ℚ
  | _, [] => 0
  | s, t :: rest =>
    (if t.ticker = tk ∧ t.type = "SELL"
      then sellMatched t.qty (getLots s.buyLots tk) else 0)
      + matchedContrib tk (engineStep s t) rest
termination_by structural _ l => l

/-- Boolean row selector: the BUY rows of one ticker. -/
def isBuyOf (tk : String) (t : Txn) : Bool :=
  decide (t.ticker = tk) && decide (t.type = "BUY")

/-- Replay of a span with no SELL for a ticker: that ticker final queue
is its initial queue extended by one lot per BUY row, in order, and the
ticker contributes nothing to realizedProfit. -/
theorem replay_no_sell (tk : String) (txs : List Txn) :
    ∀ s : EngineState, (∀ t ∈ txs, t.ticker = tk → ¬ t.type = "SELL") →
    getLots ((txs.foldl engineStep s).buyLots) tk
      = getLots s.buyLots tk
        ++ (txs.filter (isBuyOf tk)).map (fun t => Lot.mk t.qty t.price)
    ∧ replayContrib tk s txs = 0 := by
  induction txs with
  | nil => intro s _; simp [replayContrib]
  | cons t rest ih =>
    intro s h
    have hrest := ih (engineStep s t)
      (fun u hu => h u (List.mem_cons_of_mem _ hu))
    by_cases ht : t.ticker = tk
    · have hns : ¬ t.type = "SELL" := h t (List.mem_cons_self _ _) ht
      by_cases hb : t.type = "BUY"
      · constructor
        · rw [List.foldl_cons, hrest.1, ← ht, engineStep_getLots_buy hb, ht]
          simp [List.filter_cons, isBuyOf, ht, hb]
        · simp only [replayContrib, if_pos ht, hrest.2,
            engineStep_realized_of_not_sell hns]
          ring
      · constructor
        · rw [List.foldl_cons, hrest.1, engineStep_getLots_other tk hb hns]
          simp [List.filter_cons, isBuyOf, hb]
        · simp only [replayContrib, if_pos ht, hrest.2,
            engineStep_realized_of_not_sell hns]
          ring
    · constructor
      · rw [List.foldl_cons, hrest.1,
          engineStep_getLots_ne (fun hk => ht hk.symm)]
        simp [List.filter_cons, isBuyOf, ht]
      · simp only [replayContrib, if_neg ht, hrest.2]
        ring

/-- Quantity accounting along the replay: for each ticker, the total
remaining quantity of its queue grows by each of its BUY quantities and
shrinks by each of its matched SELL quantities. -/
theorem replay_qty (tk : String) (txs : List Txn) :
    ∀ s : EngineState,
    lotsQty (getLots ((txs.foldl engineStep s).buyLots) tk)
      = lotsQty (getLots s.buyLots tk)
        + sumBy (txs.filter (isBuyOf tk)) (fun t => t.qty)
        - matchedContrib tk s txs := by
  induction txs with
  | nil => intro s; simp [matchedContrib, sumBy_nil]
  | cons t rest ih =>
    intro s
    rw [List.foldl_cons, ih (engineStep s t)]
    by_cases ht : t.ticker = tk
    · by_cases hb : t.type = "BUY"
      · have hns : ¬ t.type = "SELL" := by rw [hb]; decide
        have hnc : ¬ (t.ticker = tk ∧ t.type = "SELL") := fun hc => hns hc.2
        have hfb : isBuyOf tk t = true := by simp [isBuyOf, ht, hb]
        rw [← ht, engineStep_getLots_buy hb, ht,
          List.filter_cons_of_pos hfb]
        simp only [matchedContrib, if_neg hnc, sumBy_cons]
        simp only [lotsQty, sumBy_append, sumBy_cons, sumBy_nil]
        ring
      · by_cases hs : t.type = "SELL"
        · have hc : t.ticker = tk ∧ t.type = "SELL" := ⟨ht, hs⟩
          have hfb : ¬ isBuyOf tk t = true := by simp [isBuyOf, hb]
          rw [← ht, engineStep_getLots_sell hs, ht, sellFifo_qty,
            List.filter_cons_of_neg hfb]
          simp only [matchedContrib, if_pos hc]
          ring
        · have hnc : ¬ (t.ticker = tk ∧ t.type = "SELL") := fun hc => hs hc.2
          have hfb : ¬ isBuyOf tk t = true := by simp [isBuyOf, hb]
          rw [engineStep_getLots_other tk hb hs, List.filter_cons_of_neg hfb]
          simp only [matchedContrib, if_neg hnc]
          ring
    · have hnc : ¬ (t.ticker = tk ∧ t.type = "SELL") := fun hc => ht hc.1
      have hfb : ¬ isBuyOf tk t = true := by simp [isBuyOf, ht]
      rw [engineStep_getLots_ne (fun hk => ht hk.symm),
        List.filter_cons_of_neg hfb]
      simp only [matchedContrib, if_neg hnc]
      ring

/-- Every lot queue reachable from a well-formed state stays
non-negative when all transaction quantities are non-negative. -/
theorem getLots_nonneg {m : LotMap} (tk : String)
    (h : ∀ p ∈ m, ∀ l ∈ p.2, 0 ≤ l.qty) : ∀ l ∈ getLots m tk, 0 ≤ l.qty := by
  unfold getLots assocGet
  cases hf : assocFind m tk with
  | none => simp
  | some v =>
    intro l hl
    exact h (tk, v) (assocFind_mem hf) l hl

theorem engineStep_nonneg {s : EngineState} {t : Txn} (hq : 0 ≤ t.qty)
    (h : ∀ p ∈ s.buyLots, ∀ l ∈ p.2, 0 ≤ l.qty) :
    ∀ p ∈ (engineStep s t).buyLots, ∀ l ∈ p.2, 0 ≤ l.qty := by
  have hens : ∀ p ∈ assocEnsure s.buyLots t.ticker [], ∀ l ∈ p.2, 0 ≤ l.qty := by
    intro p hp
    rcases mem_assocEnsure hp with hp | hp
    · exact h p hp
    · rw [hp]; simp
  unfold engineStep
  by_cases hb : t.type = "BUY"
  · simp only [if_pos hb]
    intro p hp
    rcases mem_assocSet hp with hp | hp
    · rw [hp]
      intro l hl
      rcases List.mem_append.mp hl with hl | hl
      · exact getLots_nonneg t.ticker hens l hl
      · simp at hl
        rw [hl]
        exact hq
    · exact hens p hp
  · by_cases hs : t.type = "SELL"
    · simp only [if_neg hb, if_pos hs]
      intro p hp
      rcases mem_assocSet hp with hp | hp
      · rw [hp]
        exact sellFifo_nonneg t.price t.qty _ (getLots_nonneg t.ticker hens)
      · exact hens p hp
    · simp only [if_neg hb, if_neg hs]
      exact hens

theorem replay_nonneg (txs : List Txn) :
    ∀ s : EngineState, (∀ t ∈ txs, 0 ≤ t.qty) →
    (∀ p ∈ s.buyLots, ∀ l ∈ p.2, 0 ≤ l.qty) →
    ∀ p ∈ (txs.foldl engineStep s).buyLots, ∀ l ∈ p.2, 0 ≤ l.qty := by
  induction txs with
  | nil => intro s _ h; exact h
  | cons t rest ih =>
    intro s hq h
    rw [List.foldl_cons]
    exact ih (engineStep s t) (fun u hu => hq u (List.mem_cons_of_mem _ hu))
      (engineStep_nonneg (hq t (List.mem_cons_self _ _)) h)

theorem sumBy_map {α β : Type} (g : α → β) (f : β → ℚ) (l : List α) :
    sumBy (l.map g) f = sumBy l (fun a => f (g a)) := by
  simp only [sumBy_eq_sum, List.map_map]
  rfl

/-! ### Claim C1: the concrete FIFO scenario -/

/-- BUY 10 at 100 on day 1, BUY 10 at 120 on day 2, SELL 15 at 150 on
day 3, one ticker. -/
def c1txs : List Txn :=
  [⟨"X", "BUY", 10, 100, 1⟩, ⟨"X", "BUY", 10, 120, 2⟩, ⟨"X", "SELL", 15, 150, 3⟩]

theorem c1_eval : fifoResult c1txs =
    { currentInvestment := 600, realizedProfit := 650,
      buyLots := [("X", [⟨5, 120⟩])] } := by
  have hs : sortTransactions c1txs = c1txs := sortTransactions_of_sorted (by decide)
  simp only [fifoResult, hs]
  norm_num [c1txs, List.foldl, engineStep, getLots, assocGet, assocEnsure, assocFind,
    assocSet, sellFifo, min_def, sumBy, lotsCost]
  decide

/-- Claim C1, counterexample: on the scenario BUY 10 at 100, BUY 10 at
120, SELL 15 at 150, the engine does NOT return realizedProfit = 350 as
the claim states: the FIFO matching of the 5 units against the second
lot earns (150 - 120) * 5 = +150, not -150, so the engine returns 650. -/
theorem claimC1_counterexample : (fifoResult c1txs).realizedProfit ≠ 350 := by
  rw [c1_eval]
  norm_num

/-- Claim C1, amended: on the scenario BUY 10 at 100 (day 1), BUY 10 at
120 (day 2), SELL 15 at 150 (day 3) for one ticker, the engine returns
realizedProfit = 10 * (150 - 100) + 5 * (150 - 120) = 650, and the
surviving queue is exactly one lot of 5 units at price 120, giving
currentInvestment = 600. -/
theorem claimC1 : fifoResult c1txs =
    { currentInvestment := 600, realizedProfit := 650,
      buyLots := [("X", [⟨5, 120⟩])] } :=
  c1_eval

/-! ### Claim C2: oversell is discarded silently -/

/-- BUY 5 at 100, then SELL 10 at 110, one ticker. -/
def c2txs : List Txn :=
  [⟨"X", "BUY", 5, 100, 1⟩, ⟨"X", "SELL", 10, 110, 2⟩]

theorem c2_eval : fifoResult c2txs =
    { currentInvestment := 0, realizedProfit := 50, buyLots := [("X", [])] } := by
  have hs : sortTransactions c2txs = c2txs := sortTransactions_of_sorted (by decide)
  simp only [fifoResult, hs]
  norm_num [c2txs, List.foldl, engineStep, getLots, assocGet, assocEnsure, assocFind,
    assocSet, sellFifo, min_def, sumBy, lotsCost]
  decide

/-- Claim C2: when a SELL quantity strictly exceeds the quantity held
in the queue, the matching loop consumes the whole queue, accrues
exactly the profit of the held units (the excess contributes nothing),
creates no negative lot and raises no error; concretely, BUY 5 at 100
then SELL 10 at 110 yields realizedProfit = 50 and an empty queue. -/
theorem claimC2 :
    (∀ (p r : ℚ) (lots : List Lot), (∀ l ∈ lots, 0 ≤ l.qty) → lotsQty lots < r →
      sellFifo p r lots = (sumBy lots (fun l => (p - l.price) * l.qty), []))
    ∧ (fifoResult c2txs).realizedProfit = 50
    ∧ getLots (fifoResult c2txs).buyLots "X" = [] := by
  refine ⟨fun p r lots h hlt => sellFifo_oversell p r lots h hlt, ?_, ?_⟩
  · rw [c2_eval]
  · rw [c2_eval]
    rfl

/-- Witness for claim C2 at a concrete queue: one lot of 2 units at
price 3, oversold by a SELL of 5 units at price 4. -/
theorem claimC2_witness :
    (∀ l ∈ [(⟨2, 3⟩ : Lot)], 0 ≤ l.qty) ∧ lotsQty [(⟨2, 3⟩ : Lot)] < 5
    ∧ sellFifo 4 5 [(⟨2, 3⟩ : Lot)]
      = (sumBy [(⟨2, 3⟩ : Lot)] (fun l => (4 - l.price) * l.qty), []) := by
  refine ⟨?_, ?_, ?_⟩
  · intro l hl
    simp at hl
    rw [hl]
    norm_num
  · norm_num [lotsQty, sumBy]
  · exact claimC2.1 4 5 [⟨2, 3⟩]
      (by intro l hl; simp at hl; rw [hl]; norm_num)
      (by norm_num [lotsQty, sumBy])

/-! ### Claim C3: conservation for a ticker with no SELLs -/

/-- Claim C3: if a ticker has no SELL rows, its realized profit
contribution is 0, and the cost basis of its surviving lots (its share
of currentInvestment) equals the sum of qty * price over its BUY rows
(its share of totalInvestment). -/
theorem claimC3 (txs : List Txn) (tk : String)
    (h : ∀ t ∈ txs, t.ticker = tk → ¬ t.type = "SELL") :
    realizedContrib txs tk = 0 ∧
    lotsCost (getLots (fifoResult txs).buyLots tk)
      = sumBy (txs.filter (isBuyOf tk)) (fun t => t.qty * t.price) := by
  have hmem : ∀ t ∈ sortTransactions txs, t.ticker = tk → ¬ t.type = "SELL" :=
    fun t ht => h t ((sortTransactions_perm txs).subset ht)
  have main := replay_no_sell tk (sortTransactions txs) ⟨[], 0⟩ hmem
  refine ⟨main.2, ?_⟩
  have hbl : (fifoResult txs).buyLots
      = ((sortTransactions txs).foldl engineStep ⟨[], 0⟩).buyLots := rfl
  rw [hbl, main.1]
  have hinit : getLots (⟨[], 0⟩ : EngineState).buyLots tk = [] := rfl
  rw [hinit, List.nil_append, lotsCost, sumBy_map]
  show sumBy ((sortTransactions txs).filter (isBuyOf tk)) (fun t => t.qty * t.price) = _
  exact sumBy_perm _ ((sortTransactions_perm txs).filter _)

/-- Witness for claim C3: ticker X has only a BUY while ticker Y sells. -/
theorem claimC3_witness :
    (∀ t ∈ [(⟨"X", "BUY", 2, 3, 1⟩ : Txn), ⟨"Y", "SELL", 1, 4, 2⟩],
      t.ticker = "X" → ¬ t.type = "SELL")
    ∧ (realizedContrib [(⟨"X", "BUY", 2, 3, 1⟩ : Txn), ⟨"Y", "SELL", 1, 4, 2⟩] "X" = 0
      ∧ lotsCost (getLots (fifoResult
          [(⟨"X", "BUY", 2, 3, 1⟩ : Txn), ⟨"Y", "SELL", 1, 4, 2⟩]).buyLots "X")
        = sumBy ([(⟨"X", "BUY", 2, 3, 1⟩ : Txn), ⟨"Y", "SELL", 1, 4, 2⟩].filter
            (isBuyOf "X")) (fun t => t.qty * t.price)) :=
  ⟨by decide, claimC3 _ "X" (by decide)⟩

/-! ### Claim C4: empty input produces all-zero aggregates -/

/-- Claim C4: on the empty transaction list, with any price map, every
aggregate of the analytics record is 0 and in particular
profitPercentage is 0 by the zero-investment guard. -/
theorem claimC4 (prices : String → Option ℚ) :
    analytics [] prices =
      { totalInvestment := 0, currentInvestment := 0, currentValue := 0,
        realizedProfit := 0, unrealizedProfit := 0, totalProfit := 0,
        profitPercentage := 0 } := by
  norm_num [analytics, fifoResult, sortTransactions, sumBy, lotsCost]

/-! ### Claim C5: permutation invariance under distinct dates -/

/-- Claim C5: when all dates are pairwise distinct, every permutation
of the transaction list produces the same engine output, both the FIFO
record and the analytics record. -/
theorem claimC5 (txs txs' : List Txn) (prices : String → Option ℚ)
    (hperm : txs.Perm txs') (hnd : (txs.map Txn.date).Nodup) :
    fifoResult txs = fifoResult txs' ∧ analytics txs prices = analytics txs' prices := by
  have hsort := sortTransactions_perm_eq hperm hnd
  have hf : fifoResult txs = fifoResult txs' := by
    simp only [fifoResult, hsort]
  refine ⟨hf, ?_⟩
  have htot : sumBy (txs.filter (fun t => t.type = "BUY")) (fun t => t.qty * t.price)
      = sumBy (txs'.filter (fun t => t.type = "BUY")) (fun t => t.qty * t.price) :=
    sumBy_perm _ (hperm.filter _)
  have hcv : sumBy txs (fun t => t.qty * jsOr (prices t.ticker) t.price)
      = sumBy txs' (fun t => t.qty * jsOr (prices t.ticker) t.price) :=
    sumBy_perm _ hperm
  simp only [analytics, hf, htot, hcv]

/-- Witness for claim C5: a two-element list with distinct dates and
its transposition. -/
theorem claimC5_witness :
    ([(⟨"X", "BUY", 1, 2, 1⟩ : Txn), ⟨"X", "SELL", 1, 3, 2⟩].Perm
        [(⟨"X", "SELL", 1, 3, 2⟩ : Txn), ⟨"X", "BUY", 1, 2, 1⟩])
    ∧ ([(⟨"X", "BUY", 1, 2, 1⟩ : Txn), ⟨"X", "SELL", 1, 3, 2⟩].map Txn.date).Nodup
    ∧ (fifoResult [(⟨"X", "BUY", 1, 2, 1⟩ : Txn), ⟨"X", "SELL", 1, 3, 2⟩]
        = fifoResult [(⟨"X", "SELL", 1, 3, 2⟩ : Txn), ⟨"X", "BUY", 1, 2, 1⟩]
      ∧ analytics [(⟨"X", "BUY", 1, 2, 1⟩ : Txn), ⟨"X", "SELL", 1, 3, 2⟩] (fun _ => none)
        = analytics [(⟨"X", "SELL", 1, 3, 2⟩ : Txn), ⟨"X", "BUY", 1, 2, 1⟩] (fun _ => none)) :=
  ⟨List.Perm.swap _ _ _, by decide,
    claimC5 _ _ (fun _ => none) (List.Perm.swap _ _ _) (by decide)⟩

/-! ### Claim C9: the replay invariant -/

/-- Claim C9: at every point of the replay (every prefix of the sorted
list), each lot quantity is non-negative (given non-negative input
quantities), and for each ticker the total remaining quantity of its
queue equals the BUY quantity replayed so far minus the SELL quantity
actually matched so far. -/
theorem claimC9 (txs : List Txn) (hq : ∀ t ∈ txs, 0 ≤ t.qty) (n : ℕ) (tk : String) :
    (∀ p ∈ (((sortTransactions txs).take n).foldl engineStep ⟨[], 0⟩).buyLots,
        ∀ l ∈ p.2, 0 ≤ l.qty)
    ∧ lotsQty (getLots ((((sortTransactions txs).take n).foldl engineStep ⟨[], 0⟩).buyLots) tk)
      = sumBy (((sortTransactions txs).take n).filter (isBuyOf tk)) (fun t => t.qty)
        - matchedContrib tk ⟨[], 0⟩ ((sortTransactions txs).take n) := by
  constructor
  · apply replay_nonneg
    · intro t ht
      exact hq t ((sortTransactions_perm txs).subset (List.mem_of_mem_take ht))
    · intro p hp
      simp at hp
  · rw [replay_qty tk ((sortTransactions txs).take n) ⟨[], 0⟩]
    norm_num [getLots, assocGet, assocFind, lotsQty, sumBy]

/-- Witness for claim C9 on a two-transaction history, full prefix. -/
theorem claimC9_witness :
    (∀ t ∈ [(⟨"X", "BUY", 3, 2, 1⟩ : Txn), ⟨"X", "SELL", 1, 5, 2⟩], 0 ≤ t.qty)
    ∧ ((∀ p ∈ (((sortTransactions [(⟨"X", "BUY", 3, 2, 1⟩ : Txn), ⟨"X", "SELL", 1, 5, 2⟩]).take 2).foldl
          engineStep ⟨[], 0⟩).buyLots, ∀ l ∈ p.2, 0 ≤ l.qty)
      ∧ lotsQty (getLots ((((sortTransactions
            [(⟨"X", "BUY", 3, 2, 1⟩ : Txn), ⟨"X", "SELL", 1, 5, 2⟩]).take 2).foldl
              engineStep ⟨[], 0⟩).buyLots) "X")
        = sumBy (((sortTransactions
            [(⟨"X", "BUY", 3, 2, 1⟩ : Txn), ⟨"X", "SELL", 1, 5, 2⟩]).take 2).filter
              (isBuyOf "X")) (fun t => t.qty)
          - matchedContrib "X" ⟨[], 0⟩ ((sortTransactions
              [(⟨"X", "BUY", 3, 2, 1⟩ : Txn), ⟨"X", "SELL", 1, 5, 2⟩]).take 2)) :=
  ⟨by decide, claimC9 _ (by decide) 2 "X"⟩

/-! ### Claim C8: the currentValue fallback -/

theorem sumBy_congr {α : Type} {l : List α} {f g : α → ℚ}
    (h : ∀ a ∈ l, f a = g a) : sumBy l f = sumBy l g := by
  induction l with
  | nil => rfl
  | cons a l ih =>
    rw [sumBy_cons, sumBy_cons, h a (List.mem_cons_self _ _),
      ih (fun b hb => h b (List.mem_cons_of_mem _ hb))]

/-- Modelled from the claim wording (spec section 4.1 step 7 as read by
claim C8): currentValue as the sum over all transactions of qty times
the live price, falling back to the transaction price EXACTLY when the
ticker has no entry in tickerPrices.  This is the comparison point; the
code itself is the jsOr-based sum inside analytics. -/
def currentValueSpec (txs : List Txn) (prices : String → Option ℚ) : ℚ :=
  sumBy txs (fun t => t.qty *
    (match prices t.ticker with
      | some p => p
      | none => t.price))

/-- A single BUY of 1 unit at price 50 on a ticker whose live price
entry is present but equal to 0. -/
def c8txs : List Txn := [⟨"X", "BUY", 1, 50, 1⟩]

/-- A price map with an entry 0 for ticker X. -/
def c8prices : String → Option ℚ := fun tk => if tk = "X" then some 0 else none

/-- Claim C8, counterexample: with a live price entry 0 for the ticker,
the code falls back to the transaction price (JavaScript || treats 0 as
falsy) and returns 50, while the claimed fallback-only-when-absent rule
would return 0. -/
theorem claimC8_counterexample :
    (analytics c8txs c8prices).currentValue = 50
    ∧ currentValueSpec c8txs c8prices = 0
    ∧ (analytics c8txs c8prices).currentValue ≠ currentValueSpec c8txs c8prices := by
  refine ⟨?_, ?_, ?_⟩ <;>
    norm_num [analytics, currentValueSpec, c8txs, c8prices, jsOr, sumBy]

/-- Claim C8, amended: currentValue sums qty times the live price over
all transactions (both BUY and SELL, without netting), falling back to
the transaction price when the ticker has no entry in tickerPrices OR
when its entry is 0 (JavaScript || treats 0 as falsy); in particular,
when every stored live price is non-zero, the fallback happens exactly
on the missing tickers, as the original claim stated. -/
theorem claimC8 (txs : List Txn) (prices : String → Option ℚ)
    (h : ∀ tk p, prices tk = some p → p ≠ 0) :
    (analytics txs prices).currentValue = currentValueSpec txs prices := by
  show sumBy txs (fun t => t.qty * jsOr (prices t.ticker) t.price) = _
  apply sumBy_congr
  intro t _
  cases hp : prices t.ticker with
  | none => simp [jsOr]
  | some p =>
    have hne := h t.ticker p hp
    simp [jsOr, hne]

/-- Witness for claim C8 on a price map whose only entry is 2. -/
theorem claimC8_witness :
    (∀ tk p, (fun s => if s = "X" then some (2 : ℚ) else none) tk = some p → p ≠ 0)
    ∧ (analytics c8txs (fun s => if s = "X" then some (2 : ℚ) else none)).currentValue
      = currentValueSpec c8txs (fun s => if s = "X" then some (2 : ℚ) else none) := by
  have h : ∀ tk p, (fun s => if s = "X" then some (2 : ℚ) else none) tk = some p → p ≠ 0 := by
    intro tk p hp
    by_cases htk : tk = "X"
    · simp [htk] at hp
      rw [← hp]
      norm_num
    · simp [htk] at hp
  exact ⟨h, claimC8 c8txs _ h⟩

/-! ### Claim C10: termination of the SELL matching loop

The while loop of App.jsx lines 45-53 is modelled here iteration by
iteration (the identical loop body also appears in Analytics.jsx lines
230-240 inside calculateCompanyMetrics); sellFifo above is its
recursive rendering. -/

/-- The mutable state of the while loop: the realizedProfit
accumulator, remainingSellQty, and the lot queue. -/
structure LoopState where
  profit : ℚ
  remaining : ℚ
  lots : List Lot
  deriving DecidableEq, Repr

/-- The loop guard of App.jsx line 45:
remainingSellQty > 0 && lots.length > 0. -/
def loopGuard (st : LoopState) : Bool :=
  decide (0 < st.remaining) && decide (0 < st.lots.length)

/-- One iteration of the loop body, App.jsx lines 46-52: match against
the front lot, accrue profit, decrement both quantities, shift the
front lot off when it reaches 0. -/
def loopBody (sellPrice : ℚ) (st : LoopState) : LoopState :=
  match st.lots with
  | [] => st
  | lot :: rest =>
    let matched := min lot.qty st.remaining
    let newQty := lot.qty - matched
    { profit := st.profit + (sellPrice - lot.price) * matched
      remaining := st.remaining - matched
      lots := if newQty = 0 then rest else ⟨newQty, lot.price⟩ :: rest }

/-- Run the loop for at most the given number of iterations, stopping
as soon as the guard fails. -/
def loopIter (sellPrice : ℚ) : ℕ → LoopState → LoopState
  | 0, st => st
  | n + 1, st =>
    if loopGuard st then loopIter sellPrice n (loopBody sellPrice st) else st

/-- Termination measure for the loop: twice the queue length, plus one
while the remaining-quantity guard component still holds. -/
def loopMeasure (st : LoopState) : ℕ :=
  2 * st.lots.length + (if 0 < st.remaining then 1 else 0)

theorem loopGuard_iff {st : LoopState} :
    loopGuard st = true ↔ 0 < st.remaining ∧ st.lots ≠ [] := by
  simp [loopGuard, List.length_pos]

theorem loopIter_of_guard_false (p : ℚ) (fuel : ℕ) {st : LoopState}
    (h : loopGuard st = false) : loopIter p fuel st = st := by
  cases fuel with
  | zero => rfl
  | succ n => simp [loopIter, h]

/-- Each guard-passing iteration either strictly decreases
remainingSellQty or strictly shortens the queue. -/
theorem loopBody_progress (p : ℚ) (st : LoopState) (hg : loopGuard st = true) :
    (loopBody p st).remaining < st.remaining
    ∨ (loopBody p st).lots.length < st.lots.length := by
  obtain ⟨hr, hl⟩ := loopGuard_iff.mp hg
  cases hlots : st.lots with
  | nil => exact absurd hlots hl
  | cons lot rest =>
    by_cases hz : lot.qty - min lot.qty st.remaining = 0
    · right
      simp [loopBody, hlots, hz]
    · left
      have hm : min lot.qty st.remaining = st.remaining := by
        rcases min_choice lot.qty st.remaining with h | h
        · exact absurd (by rw [h]; ring) hz
        · exact h
      simp only [loopBody, hlots, hm]
      linarith

/-- Each guard-passing iteration strictly decreases the measure. -/
theorem loopBody_measure (p : ℚ) (st : LoopState) (hg : loopGuard st = true) :
    loopMeasure (loopBody p st) < loopMeasure st := by
  obtain ⟨hr, hl⟩ := loopGuard_iff.mp hg
  cases hlots : st.lots with
  | nil => exact absurd hlots hl
  | cons lot rest =>
    by_cases hz : lot.qty - min lot.qty st.remaining = 0
    · simp only [loopMeasure, loopBody, hlots, if_pos hz, if_pos hr,
        List.length_cons]
      split <;> omega
    · have hm : min lot.qty st.remaining = st.remaining := by
        rcases min_choice lot.qty st.remaining with h | h
        · exact absurd (by rw [h]; ring) hz
        · exact h
      have hr0 : ¬ (0 : ℚ) < st.remaining - min lot.qty st.remaining := by
        rw [hm]; simp
      simp only [loopMeasure, loopBody, hlots, if_neg hz, if_pos hr,
        if_neg hr0, List.length_cons]
      omega

theorem loopIter_halts (p : ℚ) : ∀ (n : ℕ) (st : LoopState),
    loopMeasure st ≤ n → loopGuard (loopIter p n st) = false := by
  intro n
  induction n with
  | zero =>
    intro st hm
    have hnil : st.lots = [] := by
      cases h : st.lots with
      | nil => rfl
      | cons a l =>
        rw [loopMeasure, h] at hm
        split at hm <;> simp at hm
    show loopGuard st = false
    simp [loopGuard, hnil]
  | succ n ih =>
    intro st hm
    cases hg : loopGuard st with
    | false =>
      rw [loopIter_of_guard_false p (n + 1) hg]
      exact hg
    | true =>
      have hlt := loopBody_measure p st hg
      simp only [loopIter, hg, if_true]
      exact ih _ (by omega)

/-- The fueled loop with enough fuel computes exactly sellFifo. -/
theorem loopIter_sellFifo (price : ℚ) : ∀ (lots : List Lot) (r p0 : ℚ) (fuel : ℕ),
    2 * lots.length + 1 ≤ fuel →
    (loopIter price fuel ⟨p0, r, lots⟩).profit = p0 + (sellFifo price r lots).1
    ∧ (loopIter price fuel ⟨p0, r, lots⟩).lots = (sellFifo price r lots).2 := by
  intro lots
  induction lots with
  | nil =>
    intro r p0 fuel _
    have hg : loopGuard ⟨p0, r, []⟩ = false := by simp [loopGuard]
    rw [loopIter_of_guard_false price fuel hg]
    simp [sellFifo]
  | cons lot rest ih =>
    intro r p0 fuel hfuel
    obtain ⟨f, rfl⟩ : ∃ f, fuel = f + 1 := by
      cases fuel with
      | zero => omega
      | succ f => exact ⟨f, rfl⟩
    by_cases hr : 0 < r
    · have hg : loopGuard ⟨p0, r, lot :: rest⟩ = true := by
        simp [loopGuard, hr]
      simp only [loopIter, if_pos hg]
      by_cases hz : lot.qty - min lot.qty r = 0
      · have hbody : loopBody price ⟨p0, r, lot :: rest⟩
            = ⟨p0 + (price - lot.price) * min lot.qty r, r - min lot.qty r, rest⟩ := by
          simp [loopBody, hz]
        rw [hbody]
        have := ih (r - min lot.qty r) (p0 + (price - lot.price) * min lot.qty r) f
          (by simp at hfuel ⊢; omega)
        refine ⟨?_, ?_⟩
        · rw [this.1]
          simp only [sellFifo, if_pos hr, if_pos hz]
          ring
        · rw [this.2]
          simp only [sellFifo, if_pos hr, if_pos hz]
      · have hm : min lot.qty r = r := by
          rcases min_choice lot.qty r with h | h
          · exact absurd (by rw [h]; ring) hz
          · exact h
        have hbody : loopBody price ⟨p0, r, lot :: rest⟩
            = ⟨p0 + (price - lot.price) * min lot.qty r, r - min lot.qty r,
                ⟨lot.qty - min lot.qty r, lot.price⟩ :: rest⟩ := by
          simp [loopBody, hz]
        rw [hbody]
        have hg2 : loopGuard ⟨p0 + (price - lot.price) * min lot.qty r,
            r - min lot.qty r, ⟨lot.qty - min lot.qty r, lot.price⟩ :: rest⟩ = false := by
          simp [loopGuard, hm]
        rw [loopIter_of_guard_false price f hg2]
        simp [sellFifo, if_pos hr, if_neg hz]
    · have hg : loopGuard ⟨p0, r, lot :: rest⟩ = false := by
        simp [loopGuard, hr]
      rw [loopIter_of_guard_false price (f + 1) hg]
      simp [sellFifo, if_neg hr]

/-- Claim C10: the SELL matching loop terminates on every input.  Each
guard-passing iteration either strictly decreases the remaining sell
quantity or strictly shortens the queue, so the measure strictly
decreases, the guard fails within the measure many iterations, and the
loop computes exactly the sellFifo recursion used by the engine (the
same loop body appears in calculateCompanyMetrics of Analytics.jsx). -/
theorem claimC10 :
    (∀ (p : ℚ) (st : LoopState), loopGuard st = true →
      ((loopBody p st).remaining < st.remaining
        ∨ (loopBody p st).lots.length < st.lots.length)
      ∧ loopMeasure (loopBody p st) < loopMeasure st)
    ∧ (∀ (p : ℚ) (st : LoopState), loopGuard (loopIter p (loopMeasure st) st) = false)
    ∧ (∀ (p r : ℚ) (lots : List Lot),
        (loopIter p (2 * lots.length + 1) ⟨0, r, lots⟩).profit = (sellFifo p r lots).1
        ∧ (loopIter p (2 * lots.length + 1) ⟨0, r, lots⟩).lots = (sellFifo p r lots).2) := by
  refine ⟨fun p st hg => ⟨loopBody_progress p st hg, loopBody_measure p st hg⟩,
    fun p st => loopIter_halts p (loopMeasure st) st le_rfl,
    fun p r lots => ?_⟩
  have := loopIter_sellFifo p lots r 0 (2 * lots.length + 1) le_rfl
  exact ⟨by rw [this.1]; ring, this.2⟩

/-- Witness for claim C10 at a concrete loop state: one lot of 3 units,
a remaining sell of 5. -/
theorem claimC10_witness :
    loopGuard ⟨0, 5, [⟨3, 2⟩]⟩ = true
    ∧ (((loopBody 4 ⟨0, 5, [⟨3, 2⟩]⟩).remaining < (5 : ℚ)
        ∨ (loopBody 4 ⟨0, 5, [⟨3, 2⟩]⟩).lots.length < 1)
      ∧ loopMeasure (loopBody 4 ⟨0, 5, [⟨3, 2⟩]⟩) < loopMeasure ⟨0, 5, [⟨3, 2⟩]⟩)
    ∧ loopGuard (loopIter 4 (loopMeasure ⟨0, 5, [⟨3, 2⟩]⟩) ⟨0, 5, [⟨3, 2⟩]⟩) = false := by
  have hg : loopGuard ⟨0, 5, [⟨3, 2⟩]⟩ = true := by norm_num [loopGuard]
  exact ⟨hg, claimC10.1 4 ⟨0, 5, [⟨3, 2⟩]⟩ hg, claimC10.2.1 4 ⟨0, 5, [⟨3, 2⟩]⟩⟩

/-! ### Claim C7: coercion of malformed qty and price fields

App.jsx multiplies the raw fields directly (t.qty * t.price, lines
21-23 and 39-51), so JavaScript ToNumber applies; Analytics.jsx first
runs parseFloat(tx.qty) || 0 (calculateCompanyMetrics, lines 186-187).
To compare the two, raw records carry JavaScript field values. -/

/-- A JavaScript field value of a raw transaction record: a plain
number, a missing field (undefined), or a string from which neither
ToNumber nor parseFloat extracts a number (such as "abc").  Strings
with a parseable numeric prefix are outside the modelled domain; no
claim depends on them. -/
inductive JsVal where
  | undef : JsVal
  | num : ℚ → JsVal
  | strNoParse : JsVal
  deriving DecidableEq, Repr

/-- A JavaScript arithmetic result: a number (idealized as an exact
rational) or NaN. -/
inductive JsNum where
  | nan : JsNum
  | num : ℚ → JsNum
  deriving DecidableEq, Repr

/-- JavaScript ToNumber as applied by the * and + operators: undefined
and unparseable strings coerce to NaN. -/
def toNumber : JsVal → JsNum
  | .undef => .nan
  | .num q => .num q
  | .strNoParse => .nan

/-- JavaScript + on numbers: NaN propagates. -/
def JsNum.add : JsNum → JsNum → JsNum
  | .num a, .num b => .num (a + b)
  | _, _ => .nan

/-- JavaScript * on numbers: NaN propagates. -/
def JsNum.mul : JsNum → JsNum → JsNum
  | .num a, .num b => .num (a * b)
  | _, _ => .nan

/-- parseFloat(x) || 0 of Analytics.jsx lines 186-187: a number parses
to itself (a parsed 0 is falsy but the fallback is 0 as well), while
undefined and unparseable strings give NaN, which || replaces by 0. -/
def parseFloatOr0 : JsVal → ℚ
  | .num q => q
  | _ => 0

/-- A raw transaction record as delivered by the transaction store,
before any numeric coercion, with the metadata fields read by the
grouping code (a missing metadata field is none). -/
structure RawTxn where
  ticker : String
  type : String
  qty : JsVal
  price : JsVal
  date : ℕ
  sector : Option String
  assetType : Option String
  broker : Option String
  deriving DecidableEq, Repr

/-- totalInvestment of App.jsx lines 21-23 at JavaScript value level:
filter the BUY rows, then reduce s + t.qty * t.price from 0, the
operators coercing the raw fields through ToNumber.  App.jsx applies no
parseFloat here. -/
def totalInvestmentJs (txs : List RawTxn) : JsNum :=
  (txs.filter (fun t => t.type = "BUY")).foldl
    (fun s t => s.add ((toNumber t.qty).mul (toNumber t.price))) (.num 0)

/-- A buy or sell row pushed by the grouping code of Analytics.jsx
lines 207 and 210: the coerced quantity and price plus the date. -/
structure BuyRec where
  qty : ℚ
  price : ℚ
  date : ℕ
  deriving DecidableEq, Repr

/-- The slice of the fresh company object of Analytics.jsx lines
189-204 that the grouping pass writes (the metric fields it initializes
to 0 are recomputed later from buys and sells). -/
structure Company where
  ticker : String
  sector : String
  assetType : String
  broker : String
  buys : List BuyRec
  sells : List BuyRec
  overallInvestment : ℚ
  deriving DecidableEq, Repr

/-- The fresh company object for a first-seen ticker (Analytics.jsx
lines 188-205), defaulting missing metadata. -/
def initCompany (t : RawTxn) : Company :=
  { ticker := t.ticker
    sector := t.sector.getD "Unknown Sector"
    assetType := t.assetType.getD "Unknown Asset Type"
    broker := t.broker.getD "Unknown Broker"
    buys := []
    sells := []
    overallInvestment := 0 }

/-- One iteration of the grouping forEach of Analytics.jsx lines
185-212: coerce qty and price with parseFloat || 0, ensure the company
entry exists, then push the row on buys or sells, accumulating
overallInvestment on BUY. -/
def groupStep (m : List (String × Company)) (t : RawTxn) : List (String × Company) :=
  let qty := parseFloatOr0 t.qty
  let price := parseFloatOr0 t.price
  let m2 := assocEnsure m t.ticker (initCompany t)
  let c := assocGet m2 t.ticker (initCompany t)
  if t.type = "BUY" then
    assocSet m2 t.ticker
      { c with
        buys := c.buys ++ [⟨qty, price, t.date⟩]
        overallInvestment := c.overallInvestment + qty * price }
  else if t.type = "SELL" then
    assocSet m2 t.ticker { c with sells := c.sells ++ [⟨qty, price, t.date⟩] }
  else m2

/-- The companyMap built by the grouping pass of calculateCompanyMetrics
(Analytics.jsx lines 182-212), in key-insertion order. -/
def groupCompanies (txs : List RawTxn) : List (String × Company) :=
  txs.foldl groupStep []

/-- Replace the raw qty and price of a record by their parseFloat || 0
coercions, as plain numbers. -/
def sanitizeTxn (t : RawTxn) : RawTxn :=
  { t with qty := .num (parseFloatOr0 t.qty), price := .num (parseFloatOr0 t.price) }

theorem parseFloatOr0_sanitize (v : JsVal) :
    parseFloatOr0 (JsVal.num (parseFloatOr0 v)) = parseFloatOr0 v := rfl

theorem groupStep_sanitize (m : List (String × Company)) (t : RawTxn) :
    groupStep m (sanitizeTxn t) = groupStep m t := rfl

/-- Claim C7, counterexample: a BUY whose qty field is missing.  In
App.jsx the computation of totalInvestment does not treat the field as
0: undefined * 100 is NaN and NaN propagates through the sum, so the
result is NaN rather than the number 0 that coercion to zero would
produce (no exception is raised either way). -/
theorem claimC7_counterexample :
    totalInvestmentJs [⟨"X", "BUY", JsVal.undef, JsVal.num 100, 1, none, none, none⟩]
      = JsNum.nan
    ∧ JsNum.nan ≠ JsNum.num 0 := by
  refine ⟨?_, by simp⟩
  rfl

/-- Claim C7, amended: the parseFloat || 0 coercion lives in
calculateCompanyMetrics (Analytics.jsx), where a missing or unparseable
qty or price behaves exactly like a literal 0 and the transaction is
never rejected: the grouped company data is unchanged when every raw
field is replaced by its coerced numeric value.  The App.jsx analytics,
by contrast, multiplies the raw fields directly, so there such a field
propagates as NaN through totalInvestment (still without raising an
error). -/
theorem claimC7 :
    (∀ txs : List RawTxn, groupCompanies (txs.map sanitizeTxn) = groupCompanies txs)
    ∧ totalInvestmentJs [⟨"X", "BUY", JsVal.undef, JsVal.num 100, 1, none, none, none⟩]
      = JsNum.nan := by
  constructor
  · intro txs
    show (txs.map sanitizeTxn).foldl groupStep [] = txs.foldl groupStep []
    rw [List.foldl_map]
    rfl
  · rfl

/-! ### Claim C6: no mutation of caller records (heap model)

The pure embedding above cannot express object mutation, so the claim
is settled on an explicit heap rendering of the same fifoResult code:
every object lives at an address, the engine receives the transaction
list as a list of addresses, each BUY allocates its fresh lot object
at the allocation watermark (modelling the object literal pushed at
App.jsx line 39), and the SELL loop writes lot.qty through the queue
addresses (lines 45-53).  The sort of line 28 copies the array and
performs no object write, so the run is stated for an arbitrary replay
order, which covers the sorted one.  The claim becomes the frame
property: every address below the watermark at call entry, which is
where every caller-owned object (in particular each transaction
record) lives, holds the same content when the run ends. -/

/-- A heap object: a transaction record or a mutable lot. -/
inductive HObj where
  | txnObj : Txn → HObj
  | lotObj : ℚ → ℚ → HObj
  deriving DecidableEq

/-- The heap: a partial map from addresses to objects. -/
abbrev Heap := ℕ → Option HObj

/-- Reading the fields of a transaction record through its address. -/
def readTxn (h : Heap) (a : ℕ) : Txn :=
  match h a with
  | some (.txnObj t) => t
  | _ => ⟨"", "", 0, 0, 0⟩

/-- Reading a lot object through its address. -/
def readLot (h : Heap) (a : ℕ) : Lot :=
  match h a with
  | some (.lotObj q p) => ⟨q, p⟩
  | _ => ⟨0, 0⟩

/-- Writing a lot object at an address. -/
def writeLot (h : Heap) (a : ℕ) (l : Lot) : Heap :=
  fun b => if b = a then some (.lotObj l.qty l.price) else h b

/-- Engine state in the heap model: the heap, the allocation watermark,
the per-ticker queues of lot addresses, and the profit accumulator. -/
structure HeapState where
  heap : Heap
  next : ℕ
  buyLots : List (String × List ℕ)
  realizedProfit : ℚ

/-- The SELL while loop of App.jsx lines 45-53 on the heap: the queue
holds lot addresses, lot.qty -= matchedQty writes through the front
address, and shift drops it from the queue. -/
def sellFifoH (sellPrice : ℚ) : Heap → ℚ → List ℕ → ℚ × Heap × List ℕ
  | h, _, [] => (0, h, [])
  | h, remaining, a :: rest =>
    if 0 < remaining then
      let lot := readLot h a
      let matched := min lot.qty remaining
      let h2 := writeLot h a ⟨lot.qty - matched, lot.price⟩
      if lot.qty - matched = 0 then
        let r := sellFifoH sellPrice h2 (remaining - matched) rest
        ((sellPrice - lot.price) * matched + r.1, r.2)
      else
        ((sellPrice - lot.price) * matched, h2, a :: rest)
    else (0, h, a :: rest)
termination_by structural _ _ addrs => addrs

/-- One replay iteration of App.jsx lines 34-56 on the heap: read the
transaction record through its address, allocate the fresh lot object
of a BUY at the watermark, or run the matching loop of a SELL. -/
def engineStepH (s : HeapState) (a : ℕ) : HeapState :=
  let t := readTxn s.heap a
  let m := assocEnsure s.buyLots t.ticker []
  if t.type = "BUY" then
    { heap := writeLot s.heap s.next ⟨t.qty, t.price⟩
      next := s.next + 1
      buyLots := assocSet m t.ticker (assocGet m t.ticker [] ++ [s.next])
      realizedProfit := s.realizedProfit }
  else if t.type = "SELL" then
    let r := sellFifoH t.price s.heap t.qty (assocGet m t.ticker [])
    { heap := r.2.1
      next := s.next
      buyLots := assocSet m t.ticker r.2.2
      realizedProfit := s.realizedProfit + r.1 }
  else
    { s with buyLots := m }

/-- A full engine run in the heap model, from a caller heap whose
allocation watermark is n0 and a list of transaction addresses. -/
def runEngineH (h0 : Heap) (n0 : ℕ) (addrs : List ℕ) : HeapState :=
  addrs.foldl engineStepH ⟨h0, n0, [], 0⟩

/-- Address well-formedness: the watermark never recedes below n0 and
every queued lot address was allocated by this run. -/
def addrInv (n0 : ℕ) (s : HeapState) : Prop :=
  n0 ≤ s.next ∧ ∀ p ∈ s.buyLots, ∀ a ∈ p.2, n0 ≤ a ∧ a < s.next

theorem sellFifoH_frame (price : ℚ) : ∀ (addrs : List ℕ) (h : Heap) (r : ℚ) (b : ℕ),
    b ∉ addrs → (sellFifoH price h r addrs).2.1 b = h b := by
  intro addrs
  induction addrs with
  | nil => intro h r b _; simp [sellFifoH]
  | cons a rest ih =>
    intro h r b hb
    have hba : b ≠ a := fun hc => hb (hc ▸ List.mem_cons_self _ _)
    have hbr : b ∉ rest := fun hc => hb (List.mem_cons_of_mem _ hc)
    by_cases hr : 0 < r
    · by_cases hz : (readLot h a).qty - min (readLot h a).qty r = 0
      · simp only [sellFifoH, if_pos hr, if_pos hz]
        rw [ih _ _ _ hbr]
        simp [writeLot, hba]
      · simp only [sellFifoH, if_pos hr, if_neg hz]
        simp [writeLot, hba]
    · simp [sellFifoH, if_neg hr]

theorem sellFifoH_subset (price : ℚ) : ∀ (addrs : List ℕ) (h : Heap) (r : ℚ),
    ∀ a ∈ (sellFifoH price h r addrs).2.2, a ∈ addrs := by
  intro addrs
  induction addrs with
  | nil => intro h r a ha; simp [sellFifoH] at ha
  | cons a rest ih =>
    intro h r b hb
    by_cases hr : 0 < r
    · by_cases hz : (readLot h a).qty - min (readLot h a).qty r = 0
      · simp only [sellFifoH, if_pos hr, if_pos hz] at hb
        exact List.mem_cons_of_mem _ (ih _ _ _ hb)
      · simp only [sellFifoH, if_pos hr, if_neg hz] at hb
        exact hb
    · simp only [sellFifoH, if_neg hr] at hb
      exact hb

theorem assocGet_addrs {n0 : ℕ} {s : HeapState} (hinv : addrInv n0 s)
    (tk : String) :
    ∀ a ∈ assocGet (assocEnsure s.buyLots tk []) tk [], n0 ≤ a ∧ a < s.next := by
  intro a ha
  unfold assocGet at ha
  cases hf : assocFind (assocEnsure s.buyLots tk []) tk with
  | none => rw [hf] at ha; simp at ha
  | some v =>
    rw [hf] at ha
    simp only [Option.getD_some] at ha
    rcases mem_assocEnsure (assocFind_mem hf) with hm | hm
    · exact hinv.2 _ hm a ha
    · have hv : v = [] := congrArg Prod.snd hm
      rw [hv] at ha
      simp at ha

theorem engineStepH_frame {n0 : ℕ} {s : HeapState} (a : ℕ) (hinv : addrInv n0 s) :
    addrInv n0 (engineStepH s a)
    ∧ ∀ b, b < n0 → (engineStepH s a).heap b = s.heap b := by
  unfold engineStepH
  by_cases hb : (readTxn s.heap a).type = "BUY"
  · simp only [if_pos hb]
    refine ⟨⟨le_trans hinv.1 (Nat.le_succ _), ?_⟩, ?_⟩
    · intro p hp aq haq
      show n0 ≤ aq ∧ aq < s.next + 1
      rcases mem_assocSet hp with hp | hp
      · rw [hp] at haq
        rcases List.mem_append.mp haq with haq | haq
        · have := assocGet_addrs hinv (readTxn s.heap a).ticker aq haq
          omega
        · simp at haq
          have := hinv.1
          omega
      · rcases mem_assocEnsure hp with hp | hp
        · have := hinv.2 p hp aq haq
          omega
        · rw [hp] at haq
          simp at haq
    · intro b hbn
      show writeLot s.heap s.next _ b = s.heap b
      have h1 := hinv.1
      have hne : b ≠ s.next := by omega
      simp [writeLot, hne]
  · by_cases hs : (readTxn s.heap a).type = "SELL"
    · simp only [if_neg hb, if_pos hs]
      have hq := assocGet_addrs hinv (readTxn s.heap a).ticker
      refine ⟨⟨hinv.1, ?_⟩, ?_⟩
      · intro p hp aq haq
        rcases mem_assocSet hp with hp | hp
        · rw [hp] at haq
          exact hq aq (sellFifoH_subset _ _ _ _ aq haq)
        · rcases mem_assocEnsure hp with hp | hp
          · exact hinv.2 p hp aq haq
          · rw [hp] at haq
            simp at haq
      · intro b hbn
        apply sellFifoH_frame
        intro hc
        have := hq b hc
        omega
    · simp only [if_neg hb, if_neg hs]
      refine ⟨⟨hinv.1, ?_⟩, ?_⟩
      · intro p hp aq haq
        rcases mem_assocEnsure hp with hp | hp
        · exact hinv.2 p hp aq haq
        · rw [hp] at haq
          simp at haq
      · intro b hbn
        trivial

theorem runH_frame (n0 : ℕ) : ∀ (addrs : List ℕ) (s : HeapState), addrInv n0 s →
    addrInv n0 (addrs.foldl engineStepH s)
    ∧ ∀ b, b < n0 → (addrs.foldl engineStepH s).heap b = s.heap b := by
  intro addrs
  induction addrs with
  | nil => intro s hinv; exact ⟨hinv, fun b _ => rfl⟩
  | cons a rest ih =>
    intro s hinv
    have hstep := engineStepH_frame a hinv
    have hrest := ih (engineStepH s a) hstep.1
    refine ⟨hrest.1, fun b hbn => ?_⟩
    rw [List.foldl_cons, hrest.2 b hbn, hstep.2 b hbn]

/-- Claim C6: the engine run mutates no pre-existing object.  Every
address below the allocation watermark at call entry, in particular
every caller transaction record and the transaction list itself, holds
the same content after the run: the lots consumed by SELL matching are
the fresh objects the run allocated, never caller records, and the
sort copies the array without writing objects (the run is quantified
over every replay order, which covers the date-sorted one). -/
theorem claimC6 (h0 : Heap) (n0 : ℕ) (addrs : List ℕ) (b : ℕ) (hb : b < n0) :
    (runEngineH h0 n0 addrs).heap b = h0 b := by
  have h := runH_frame n0 addrs ⟨h0, n0, [], 0⟩
    ⟨le_rfl, fun p hp => absurd hp (List.not_mem_nil p)⟩
  exact h.2 b hb

/-- A one-record caller heap: the transaction record sits at address 0
below the watermark 1. -/
def c6heap : Heap :=
  fun a => if a = 0 then some (HObj.txnObj ⟨"X", "BUY", 1, 2, 3⟩) else none

/-- Witness for claim C6: a run over the single caller record leaves
the record address intact. -/
theorem claimC6_witness :
    0 < 1 ∧ (runEngineH c6heap 1 [0]).heap 0 = c6heap 0 :=
  ⟨by decide, claimC6 c6heap 1 [0] 0 (by decide)⟩

end Portfolio
